import Mathlib

/-!
# gozero-libpgjulia: the Julia model generator of `cmd/root.go`

A shallow embedding of `cmd/root.go`.  Go strings are Lean `String`s, a Go
`error` result is an `Option` (`none` is `nil`), and the collaborators the file
calls (the go-zero schema reader, `pathx`, `config`, `gen`, `os.WriteFile`)
are fields of an environment record.  A run passes a world along: the content
of the regular files and the trace of the calls made.

What the model fixes about the surroundings of the code:
* paths are Unix paths, and `filepath.Join` is modelled after its documented
  behaviour there;
* the schema reader and the directory and configuration calls answer the same
  call the same way within and across runs (an unchanged schema);
* a path names a file through the environment's `FileOf`, so that several
  paths can name one file (hard and symbolic links, a volume that folds
  case); whether `os.WriteFile` succeeds, and what a failed write leaves,
  depends on the files as they are at the call;
* the order in which `range` visits the map `matchTables` is a parameter of
  the run.
-/

namespace PGJulia

/-! ## Data model -/

/-- Modelled from the spec: `model.Column` is declared in the go-zero library,
not in this repository.  Section 3 of the spec gives a column a name, a source
data-type label and nullability / key flags that the generator passes through
unused. -/
structure Column where
  Name : String
  DataType : String
  Nullable : Bool
  IsKey : Bool
deriving DecidableEq, Repr

/-- Modelled from the spec: `model.Table` is declared in the go-zero library,
not in this repository.  A table has a name and an ordered column sequence;
`cmd/root.go` reads the fields `Name` and `Columns`. -/
structure Table where
  Name : String
  Columns : List Column
deriving DecidableEq, Repr

/-- An `error` value made by a collaborator (go-zero, `os`): the code only
passes such values on, so they are identified by their message. -/
structure ExtError where
  msg : String
deriving DecidableEq, Repr

/-- The `error` values `cmd/root.go` can return: the value built on line 99 by
`errors.New("no tables matched")`, a fresh pointer that no collaborator can
return, or a collaborator's value handed through unchanged. -/
inductive Error where
  | noTablesMatched
  | ext (e : ExtError)
deriving DecidableEq, Repr

/-- The text of `err.Error()`, printed by `Execute`. -/
def Error.message : Error → String
  | .noTablesMatched => "no tables matched"
  | .ext e => e.msg

/-! ## Type mapper and code emitter (`cmd/root.go`, lines 119-145) -/

/-- The `switch` of `goTypeToJuliaType`. -/
def goTypeToJuliaType (goType : String) : String :=
  if goType = "int" ∨ goType = "int64" then "Int64"
  else if goType = "float64" then "Float64"
  else if goType = "string" then "String"
  else "Any"

/-- The text `fmt.Sprintf("const %s::%s\n", column.Name, juliaType)` written
for one column by the loop body of `generateJuliaCode`. -/
def columnText (column : Column) : String :=
  let juliaType := goTypeToJuliaType column.DataType
  "const " ++ column.Name ++ "::" ++ juliaType ++ "\n"

/-- The function `generateJuliaCode`: a `strings.Builder` that starts empty,
receives the header, one `WriteString` per column in slice order and the
closing marker; the second component is the returned `error`. -/
def generateJuliaCode (table : Table) : String × Option Error :=
  let builder := ""
  let builder := builder ++ ("module " ++ table.Name ++ "\n\n")
  let builder := table.Columns.foldl (fun b column => b ++ columnText column) builder
  let builder := builder ++ "\nend\n"
  (builder, none)

/-! ## `filepath.Join` (Go standard library, Unix)

`Join(dir, file)` drops empty arguments, joins the rest with `/` and returns
`Clean` of that.  `Clean` works on the `/`-separated elements of the path: it
drops empty and `.` elements, lets a `..` element remove the element before it
(or keeps it when the path is relative and nothing is left to remove) and
returns `.` for an empty result. -/

/-- The pieces of `s` between occurrences of `sep` (`strings.Split`). -/
def splitOnChar (sep : Char) : List Char → List (List Char)
  | [] => [[]]
  | c :: cs =>
    if c = sep then [] :: splitOnChar sep cs
    else
      match splitOnChar sep cs with
      | [] => [[c]]
      | e :: es => (c :: e) :: es

/-- One element read by `Clean`; `out` holds the elements written so far, the
last one first. -/
def cleanStep (rooted : Bool) (out : List (List Char)) (e : List Char) : List (List Char) :=
  if e = [] ∨ e = ['.'] then out
  else if e = ['.', '.'] then
    match out with
    | [] => if rooted then [] else [e]
    | top :: below => if top = ['.', '.'] then e :: top :: below else below
  else e :: out

/-- The function `filepath.Clean` on Unix. -/
def filepathClean (path : String) : String :=
  if path = "" then "."
  else
    let rooted := path.data.head? = some '/'
    let out := (splitOnChar '/' path.data).foldl (cleanStep rooted) []
    let body := String.intercalate "/" (out.reverse.map String.mk)
    if rooted then "/" ++ body
    else if body = "" then "."
    else body

/-- The function `filepath.Join` on Unix, for two elements. -/
def filepathJoin (dir file : String) : String :=
  if dir ≠ "" then filepathClean (dir ++ "/" ++ file)
  else if file ≠ "" then filepathClean file
  else ""


/-! ## The environment of a run -/

/-- Modelled from the spec: `model.ColumnData`, the result of `FindColumns`, is
declared in the go-zero library; it is the column metadata of one table, which
`Convert` turns into a `Table`. -/
structure ColumnData where
  Db : String
  Table : String
  Columns : List Column
deriving DecidableEq, Repr

/-- The value `config.NewConfig` returns (go-zero). -/
structure Config where
  NamingFormat : String
deriving DecidableEq, Repr

/-- The value `gen.NewDefaultGenerator` returns (go-zero);
`fromPostgreSqlDataSource` receives it and never reads it. -/
structure DefaultGenerator where
  dir : String
  cfg : Config
deriving DecidableEq, Repr

/-- The collaborators of `cmd/root.go`, one field per call the file makes.
`GetAllTables` takes the connection URL and the schema, `FindColumns` the
schema and the table name.  The last three fields are the file system as
`os.WriteFile(path, content, os.ModePerm)` meets it: `FileOf path` is the file
the path names (two paths that are links to one file, or differ only in case
on a volume that folds case, have the same one), `WriteFileErr files path
content` is the error of the call when the files are `files`, `none` when the
write succeeds, and `AfterFailedWrite files path content` is what a failed call
leaves (the file may have been truncated or partly written). -/
structure Env where
  MkdirIfNotExist : String → Option ExtError
  NewConfig : String → Except ExtError Config
  NewDefaultGenerator : String → Config → Except ExtError DefaultGenerator
  GetAllTables : String → String → Except ExtError (List String)
  FindColumns : String → String → Except ExtError ColumnData
  Convert : ColumnData → Except ExtError Table
  FileOf : String → String
  WriteFileErr : List (String × String) → String → String → Option ExtError
  AfterFailedWrite : List (String × String) → String → String → List (String × String)

/-- The calls a run makes to its collaborators, in order. -/
inductive Event where
  | mkdir (dir : String)
  | newConfig (style : String)
  | newGenerator (dir : String)
  | connect (url : String)
  | getAllTables (schema : String)
  | findColumns (schema table : String)
  | convert (table : String)
  | writeFile (path content : String)
deriving DecidableEq, Repr

/-- The world a run acts on: the regular files of the file system, as a list
of (file, content) in which the first entry of a file is its content, and the
calls made so far.  A file is named as `Env.FileOf` names it. -/
structure World where
  files : List (String × String)
  trace : List Event
deriving DecidableEq, Repr

/-- Appends one call to the trace. -/
def World.log (w : World) (e : Event) : World :=
  { w with trace := w.trace ++ [e] }

/-- The assignment `m[k] = v` of a Go map, and the effect of a successful
`os.WriteFile` on the file list (the file is created or truncated and then
holds the content): the entry of `k` is replaced, or added when `k` has
none. -/
def assocSet {α : Type} : List (String × α) → String → α → List (String × α)
  | [], k, v => [(k, v)]
  | (k', v') :: rest, k, v =>
    if k' = k then (k, v) :: rest else (k', v') :: assocSet rest k v

/-- The order in which `range` visits a Go map.  The language leaves it
unspecified; the run time's choice is the parameter `seed`, and every order of
the entries is the result of some seed. -/
def rangeOrder {α : Type} : List Nat → List α → List α
  | _, [] => []
  | [], x :: xs => x :: xs
  | s :: seed, x :: xs => (rangeOrder seed xs).insertIdx (s % (xs.length + 1)) x

/-! ## The orchestrator (`cmd/root.go`, lines 46-117) -/

/-- The first loop of `fromPostgreSqlDataSource` (lines 84-96), from the
table `item` on: one `FindColumns` and one `Convert` per listed table, the
first error returned at once. -/
def collectTables (env : Env) (schema : String) :
    List String → List (String × Table) → World → Except Error (List (String × Table)) × World
  | [], matchTables, w => (.ok matchTables, w)
  | item :: rest, matchTables, w =>
    let w := w.log (.findColumns schema item)
    match env.FindColumns schema item with
    | .error err => (.error (.ext err), w)
    | .ok columnData =>
      let w := w.log (.convert item)
      match env.Convert columnData with
      | .error err => (.error (.ext err), w)
      | .ok table => collectTables env schema rest (assocSet matchTables item table) w

/-- The second loop of `fromPostgreSqlDataSource` (lines 103-114) over the
tables in the order `range` yields them.  A write that succeeds leaves the
content in the file the path names; a write that fails leaves what the
environment says. -/
def writeTables (env : Env) (dir : String) : List Table → World → Option Error × World
  | [], w => (none, w)
  | table :: rest, w =>
    match generateJuliaCode table with
    | (_, some err) => (some err, w)
    | (juliaCode, none) =>
      let juliaFilename := filepathJoin dir (table.Name ++ ".jl")
      let trace := w.trace ++ [.writeFile juliaFilename juliaCode]
      match env.WriteFileErr w.files juliaFilename juliaCode with
      | some err =>
        (some (.ext err), ⟨env.AfterFailedWrite w.files juliaFilename juliaCode, trace⟩)
      | none =>
        writeTables env dir rest ⟨assocSet w.files (env.FileOf juliaFilename) juliaCode, trace⟩

/-- The function `fromPostgreSqlDataSource`. -/
def fromPostgreSqlDataSource (env : Env) (seed : List Nat) (_generator : DefaultGenerator)
    (url dir schema : String) (w : World) : Option Error × World :=
  let w := w.log (.connect url)
  let w := w.log (.getAllTables schema)
  match env.GetAllTables url schema with
  | .error err => (some (.ext err), w)
  | .ok tables =>
    match collectTables env schema tables [] w with
    | (.error err, w) => (some err, w)
    | (.ok matchTables, w) =>
      if matchTables.length = 0 then (some .noTablesMatched, w)
      else writeTables env dir ((rangeOrder seed matchTables).map Prod.snd) w

/-- The function `generateModels`. -/
def generateModels (env : Env) (seed : List Nat) (cfg : Config) (dir url schema : String)
    (w : World) : Option Error × World :=
  let w := w.log (.newGenerator dir)
  match env.NewDefaultGenerator dir cfg with
  | .error err => (some (.ext err), w)
  | .ok generator => fromPostgreSqlDataSource env seed generator url dir schema w

/-- The function `PGJuliaGen`; the flags `--dir`, `--url` and `--schema` are
the package variables `outputDir`, `url` and `schema`. -/
def PGJuliaGen (env : Env) (seed : List Nat) (outputDir url schema : String) (w : World) :
    Option Error × World :=
  let w := w.log (.mkdir outputDir)
  match env.MkdirIfNotExist outputDir with
  | some err => (some (.ext err), w)
  | none =>
    let w := w.log (.newConfig "gozero")
    match env.NewConfig "gozero" with
    | .error err => (some (.ext err), w)
    | .ok cfg => generateModels env seed cfg outputDir url schema w

/-! ## Example environments -/

/-- A column that is neither nullable nor a key. -/
def col (name dataType : String) : Column := ⟨name, dataType, false, false⟩

/-- A reader over a fixed catalogue: `GetAllTables` lists `names`,
`FindColumns` fails for the tables in `broken` and otherwise returns the
columns the catalogue gives, `Convert` keeps name and columns; every other
collaborator succeeds, and the file system has no links: every path names a
file of its own and every write succeeds. -/
def catalogueEnv (names : List String) (catalogue : String → List Column)
    (broken : List String) : Env where
  MkdirIfNotExist := fun _ => none
  NewConfig := fun style => .ok ⟨style⟩
  NewDefaultGenerator := fun dir cfg => .ok ⟨dir, cfg⟩
  GetAllTables := fun _ _ => .ok names
  FindColumns := fun schema item =>
    if item ∈ broken then .error ⟨"query failed: " ++ item⟩
    else .ok ⟨schema, item, catalogue item⟩
  Convert := fun columnData => .ok ⟨columnData.Table, columnData.Columns⟩
  FileOf := fun path => path
  WriteFileErr := fun _ _ _ => none
  AfterFailedWrite := fun files _ _ => files

/-- The catalogue of section 8 of the spec: `users{id int, name string}` and
`orders{id int64, total float64}`. -/
def shopCatalogue (item : String) : List Column :=
  if item = "users" then [col "id" "int", col "name" "string"]
  else if item = "orders" then [col "id" "int64", col "total" "float64"]
  else []

/-- A catalogue with the two tables `b` and `a/../b`, both legal PostgreSQL
names, whose output paths under any directory are the same. -/
def clashCatalogue (item : String) : List Column :=
  if item = "b" then [col "id" "int"]
  else if item = "a/../b" then [col "note" "string"]
  else []

/-- The reader of `users` and `orders` on a file system where `out/orders.jl`
is a hard link to `out/users.jl`. -/
def linkedEnv : Env :=
  { catalogueEnv ["users", "orders"] shopCatalogue [] with
    FileOf := fun path => if path = "out/orders.jl" then "out/users.jl" else path }

/-- The reader of `users` and `orders` on a file system where a file, once
created, cannot be opened for writing again (a process that is not root, with
a umask that takes the write bits away). -/
def readOnlyEnv : Env :=
  { catalogueEnv ["users", "orders"] shopCatalogue [] with
    WriteFileErr := fun files path _ =>
      if (files.lookup path).isSome then some ⟨"open " ++ path ++ ": permission denied"⟩
      else none }

/-! ## Notions the properties are stated with -/

/-- The mapping table of section 4.1 of the spec, as data. -/
def typeTable : List (String × String) :=
  [("int", "Int64"), ("int64", "Int64"), ("float64", "Float64"), ("string", "String")]

/-- The type mapper as section 4.1 of the spec words it: the table entry of
the label, and `Any` for a label the table does not list. -/
def mapType (sourceType : String) : String :=
  (typeTable.lookup sourceType).getD "Any"

/-- The declaration line of a column, `const <name>::<type>`, without its line
end. -/
def declLine (column : Column) : String :=
  "const " ++ column.Name ++ "::" ++ goTypeToJuliaType column.DataType

/-- The lines of a text: the pieces between line feeds. -/
def textLines (text : String) : List String :=
  (splitOnChar '\n' text.data).map String.mk

/-- Does the text contain `::`? -/
def hasTypeSep : List Char → Bool
  | [] => false
  | c :: cs => (c = ':' ∧ cs.head? = some ':') || hasTypeSep cs

/-- A declaration line: a line of the form `const <name>::<type>`, that is,
one that starts with `const ` and has `::` after it. -/
def isDeclLine (line : String) : Bool :=
  "const ".data.isPrefixOf line.data && hasTypeSep (line.data.drop 6)

/-- The declaration lines of a text, in order. -/
def declLines (text : String) : List String :=
  (textLines text).filter isDeclLine

/-- The tables whose column metadata a run asked for, in order. -/
def columnQueries (trace : List Event) : List String :=
  trace.filterMap fun
    | .findColumns _ table => some table
    | _ => none

/-- The `os.WriteFile` calls of a run, in order. -/
def fileWrites (trace : List Event) : List (String × String) :=
  trace.filterMap fun
    | .writeFile path content => some (path, content)
    | _ => none

/-- The path of the file written for a table (line 109). -/
def outputPath (dir : String) (table : Table) : String :=
  filepathJoin dir (table.Name ++ ".jl")

/-- What a successful write for a table stores: the file its output path
names, and the content. -/
def storedFile (env : Env) (dir : String) (table : Table) : String × String :=
  (env.FileOf (outputPath dir table), (generateJuliaCode table).1)

/-- The map `matchTables` as it is after the first loop (line 98), when the
listing and every query and conversion succeed.  The first loop does not read
the world, so it is run here on an empty one. -/
def matchTablesOf (env : Env) (url schema : String) : Option (List (String × Table)) :=
  match env.GetAllTables url schema with
  | .error _ => none
  | .ok tables =>
    match (collectTables env schema tables [] ⟨[], []⟩).1 with
    | .error _ => none
    | .ok matchTables => some matchTables

/-- The file list after the successful writes `writes`, each a file and a
content, were made in order. -/
def applyWrites (files : List (String × String)) (writes : List (String × String)) :
    List (String × String) :=
  writes.foldl (fun fs write => assocSet fs write.1 write.2) files

/-- The directory part of `filepath.Join(dir, file)` for a plain file name:
the cleaned `dir` followed by a separator, and nothing for the current
directory. -/
def joinDir (dir : String) : String :=
  if dir = "" then ""
  else
    let rooted := dir.data.head? = some '/'
    let out := (splitOnChar '/' dir.data).foldl (cleanStep rooted) []
    let body := String.intercalate "/" (out.reverse.map String.mk)
    if rooted then (if out = [] then "/" else "/" ++ body ++ "/")
    else if out = [] then "" else body ++ "/"

/-- The trace of the first loop over tables whose query and conversion
succeed: one `FindColumns` and one `Convert` each. -/
def fetchTrace (schema : String) (items : List String) : List Event :=
  items.flatMap fun item => [.findColumns schema item, .convert item]

/-! ## Lemmas -/

theorem foldl_append_eq (l : List String) (init : String) :
    l.foldl (fun r s => r ++ s) init = init ++ String.join l := by
  induction l generalizing init with
  | nil => simp [String.join]
  | cons x xs ih =>
    simp only [List.foldl_cons, String.join]
    rw [ih, ih ("" ++ x)]
    simp [String.append_assoc]

theorem join_cons (x : String) (xs : List String) :
    String.join (x :: xs) = x ++ String.join xs := by
  simp only [String.join, List.foldl_cons]
  rw [foldl_append_eq xs ("" ++ x)]
  simp [String.join]

theorem builder_loop (f : Column → String) (l : List Column) (init : String) :
    l.foldl (fun b column => b ++ f column) init = init ++ String.join (l.map f) := by
  induction l generalizing init with
  | nil => simp [String.join]
  | cons x xs ih =>
    simp only [List.foldl_cons, List.map_cons]
    rw [ih, join_cons, String.append_assoc]

theorem generateJuliaCode_eq (table : Table) :
    generateJuliaCode table
      = ("module " ++ table.Name ++ "\n\n" ++ String.join (table.Columns.map columnText)
          ++ "\nend\n", none) := by
  simp [generateJuliaCode, builder_loop]

/-! ## Type mapper and code emitter: properties -/

/-- C1: for every label, `goTypeToJuliaType` returns the entry of the table of
section 4.1 (`Int64` for `int` and `int64`, `Float64` for `float64`, `String`
for `string`) and the fallback `Any` exactly for the labels the table does not
list, among them the empty label and `Int`; being a total function to strings
it has no failure result. -/
theorem goTypeToJuliaType_table (s : String) :
    goTypeToJuliaType s = mapType s
    ∧ (goTypeToJuliaType s = "Int64" ↔ s = "int" ∨ s = "int64")
    ∧ (goTypeToJuliaType s = "Float64" ↔ s = "float64")
    ∧ (goTypeToJuliaType s = "String" ↔ s = "string")
    ∧ (goTypeToJuliaType s = "Any" ↔ s ∉ ["int", "int64", "float64", "string"])
    ∧ goTypeToJuliaType "" = "Any" ∧ goTypeToJuliaType "Int" = "Any" := by
  refine ⟨?_, ?_, ?_, ?_, ?_, by decide, by decide⟩
  all_goals
    by_cases h1 : s = "int"
    · subst h1; decide
    by_cases h2 : s = "int64"
    · subst h2; decide
    by_cases h3 : s = "float64"
    · subst h3; decide
    by_cases h4 : s = "string"
    · subst h4; decide
    have e1 : (s == "int") = false := beq_eq_false_iff_ne.mpr h1
    have e2 : (s == "int64") = false := beq_eq_false_iff_ne.mpr h2
    have e3 : (s == "float64") = false := beq_eq_false_iff_ne.mpr h3
    have e4 : (s == "string") = false := beq_eq_false_iff_ne.mpr h4
    simp [goTypeToJuliaType, mapType, typeTable, List.lookup, h1, h2, h3, h4, e1, e2, e3, e4]

/-- C3: `generateJuliaCode` never returns an error: for every table the
returned error is `nil` and a text is returned. -/
theorem generateJuliaCode_never_fails (table : Table) :
    (generateJuliaCode table).2 = none ∧ ∃ text, generateJuliaCode table = (text, none) := by
  rw [generateJuliaCode_eq]
  exact ⟨rfl, _, rfl⟩

/-- C4: for a table with zero columns `generateJuliaCode` returns the module
header of the table's name directly followed by the module-close marker. -/
theorem generateJuliaCode_no_columns (table : Table) (h : table.Columns = []) :
    generateJuliaCode table = ("module " ++ table.Name ++ "\n\n" ++ "\nend\n", none) := by
  rw [generateJuliaCode_eq, h]
  simp [String.join]

/-- The table `audit_log` without columns. -/
theorem generateJuliaCode_no_columns_witness :
    (⟨"audit_log", []⟩ : Table).Columns = []
    ∧ generateJuliaCode ⟨"audit_log", []⟩ = ("module audit_log\n\n\nend\n", none) :=
  ⟨rfl, generateJuliaCode_no_columns ⟨"audit_log", []⟩ rfl⟩

/-- C10: the text of `generateJuliaCode` is `module <Name>`, a blank line, the
lines `const <column.Name>::<goTypeToJuliaType(column.DataType)>` of the
columns in order, and the closing `end`; so two tables with the same name and
the same column names and data-type labels, whatever their nullability and
key flags, get the same result. -/
theorem generateJuliaCode_text (table : Table) :
    (generateJuliaCode table).1
      = "module " ++ table.Name ++ "\n\n"
        ++ String.join (table.Columns.map fun column =>
            "const " ++ column.Name ++ "::" ++ goTypeToJuliaType column.DataType ++ "\n")
        ++ "\nend\n"
    ∧ ∀ other : Table, other.Name = table.Name →
        other.Columns.map (fun column => (column.Name, column.DataType))
          = table.Columns.map (fun column => (column.Name, column.DataType)) →
        generateJuliaCode other = generateJuliaCode table := by
  constructor
  · rw [generateJuliaCode_eq]; rfl
  · intro other hname hcols
    rw [generateJuliaCode_eq, generateJuliaCode_eq, hname]
    have hmap : other.Columns.map columnText = table.Columns.map columnText := by
      have h := congrArg (List.map fun p : String × String =>
        "const " ++ p.1 ++ "::" ++ goTypeToJuliaType p.2 ++ "\n") hcols
      simpa [List.map_map, Function.comp_def, columnText] using h
    rw [hmap]

/-- Two `users` tables that differ only in nullability and key flags. -/
theorem generateJuliaCode_text_witness :
    generateJuliaCode ⟨"users", [⟨"id", "int", true, false⟩, ⟨"name", "string", false, false⟩]⟩
      = generateJuliaCode ⟨"users", [⟨"id", "int", false, true⟩, ⟨"name", "string", true, false⟩]⟩ :=
  (generateJuliaCode_text _).2 _ rfl rfl

/-! ## Declaration lines -/

theorem splitOnChar_ne_nil (sep : Char) (l : List Char) : splitOnChar sep l ≠ [] := by
  cases l with
  | nil => simp [splitOnChar]
  | cons c cs =>
    simp only [splitOnChar]
    split
    · simp
    · split <;> simp

theorem splitOnChar_piece (sep : Char) (a rest : List Char) (h : sep ∉ a) :
    splitOnChar sep (a ++ sep :: rest) = a :: splitOnChar sep rest := by
  induction a with
  | nil => simp [splitOnChar]
  | cons c cs ih =>
    have hc : c ≠ sep := fun e => h (by simp [e])
    have hcs : sep ∉ cs := fun e => h (List.mem_cons_of_mem _ e)
    have e : splitOnChar sep (c :: (cs ++ sep :: rest))
        = match splitOnChar sep (cs ++ sep :: rest) with
          | [] => [[c]]
          | e :: es => (c :: e) :: es := by
      rw [splitOnChar]; simp only [hc, if_false]
    rw [List.cons_append, e, ih hcs]

theorem splitOnChar_last (sep : Char) (a : List Char) (h : sep ∉ a) :
    splitOnChar sep a = [a] := by
  induction a with
  | nil => simp [splitOnChar]
  | cons c cs ih =>
    have hc : c ≠ sep := fun e => h (by simp [e])
    have hcs : sep ∉ cs := fun e => h (List.mem_cons_of_mem _ e)
    simp only [splitOnChar, hc, if_false, ih hcs]

theorem goTypeToJuliaType_cases (s : String) :
    goTypeToJuliaType s = "Int64" ∨ goTypeToJuliaType s = "Float64"
    ∨ goTypeToJuliaType s = "String" ∨ goTypeToJuliaType s = "Any" := by
  unfold goTypeToJuliaType
  split
  · exact Or.inl rfl
  · split
    · exact Or.inr (Or.inl rfl)
    · split
      · exact Or.inr (Or.inr (Or.inl rfl))
      · exact Or.inr (Or.inr (Or.inr rfl))

theorem goTypeToJuliaType_one_line (s : String) : '\n' ∉ (goTypeToJuliaType s).data := by
  rcases goTypeToJuliaType_cases s with h | h | h | h <;> rw [h] <;> decide

theorem declLine_data (column : Column) :
    (declLine column).data
      = "const ".data
        ++ (column.Name.data ++ (':' :: ':' :: (goTypeToJuliaType column.DataType).data)) := by
  simp [declLine, String.data_append]

theorem declLine_one_line (column : Column) (h : '\n' ∉ column.Name.data) :
    '\n' ∉ (declLine column).data := by
  rw [declLine_data]
  intro hmem
  simp only [List.mem_append, List.mem_cons] at hmem
  rcases hmem with hmem | hmem | hmem | hmem | hmem
  · exact absurd hmem (by decide)
  · exact h hmem
  · exact absurd hmem (by decide)
  · exact absurd hmem (by decide)
  · exact goTypeToJuliaType_one_line _ hmem

theorem hasTypeSep_append (a rest : List Char) :
    hasTypeSep (a ++ ':' :: ':' :: rest) = true := by
  induction a with
  | nil => simp [hasTypeSep]
  | cons c cs ih => simp [hasTypeSep, ih]

theorem isDeclLine_declLine (column : Column) : isDeclLine (declLine column) = true := by
  simp only [isDeclLine, declLine_data, Bool.and_eq_true]
  constructor
  · simp [List.isPrefixOf]
  · have h : ("const ".data ++ (column.Name.data
        ++ (':' :: ':' :: (goTypeToJuliaType column.DataType).data))).drop 6
        = column.Name.data ++ (':' :: ':' :: (goTypeToJuliaType column.DataType).data) := rfl
    rw [h, hasTypeSep_append]

theorem isDeclLine_header (name : String) : isDeclLine ("module " ++ name) = false := by
  simp [isDeclLine, String.data_append, List.isPrefixOf]

theorem columnText_eq (column : Column) : columnText column = declLine column ++ "\n" := rfl

theorem body_lines (columns : List Column) (rest : List Char)
    (h : ∀ column ∈ columns, '\n' ∉ column.Name.data) :
    splitOnChar '\n' ((String.join (columns.map columnText)).data ++ rest)
      = columns.map (fun column => (declLine column).data) ++ splitOnChar '\n' rest := by
  induction columns with
  | nil => simp [String.join]
  | cons column columns ih =>
    have h1 := declLine_one_line column (h column (List.mem_cons_self _ _))
    have h2 := ih (fun c hc => h c (List.mem_cons_of_mem _ hc))
    simp only [List.map_cons, join_cons, columnText_eq, String.data_append, List.append_assoc,
      List.cons_append]
    rw [splitOnChar_piece _ _ _ h1]
    simp only [List.nil_append]
    rw [h2]

theorem textLines_generateJuliaCode (table : Table) (hname : '\n' ∉ table.Name.data)
    (hcols : ∀ column ∈ table.Columns, '\n' ∉ column.Name.data) :
    textLines (generateJuliaCode table).1
      = ["module " ++ table.Name, ""] ++ table.Columns.map declLine ++ ["", "end", ""] := by
  have hhead : '\n' ∉ ("module " ++ table.Name).data := by
    simp only [String.data_append, List.mem_append, not_or]
    exact ⟨by decide, hname⟩
  have e1 : (generateJuliaCode table).1.data
      = ("module " ++ table.Name).data ++ '\n' :: ([] ++ '\n' ::
          ((String.join (table.Columns.map columnText)).data ++ ['\n', 'e', 'n', 'd', '\n'])) := by
    rw [generateJuliaCode_eq]
    simp only [String.data_append, List.append_assoc]
    rfl
  simp only [textLines]
  rw [e1, splitOnChar_piece _ _ _ hhead, splitOnChar_piece _ _ _ (by simp),
    body_lines _ _ hcols]
  have e2 : splitOnChar '\n' ['\n', 'e', 'n', 'd', '\n'] = [[], ['e', 'n', 'd'], []] := by decide
  rw [e2]
  simp only [List.map_cons, List.map_append, List.map_map, List.map_nil]
  rfl

/-- C2 (amended): for a table whose name and column names contain no line
feed, the declaration lines of the text of `generateJuliaCode` are, in order,
the lines `const <column.Name>::<goTypeToJuliaType(column.DataType)>` of the
columns: there are as many as columns and the i-th one belongs to the i-th
column. -/
theorem declLines_generateJuliaCode (table : Table) (hname : '\n' ∉ table.Name.data)
    (hcols : ∀ column ∈ table.Columns, '\n' ∉ column.Name.data) :
    declLines (generateJuliaCode table).1
      = table.Columns.map (fun column =>
          "const " ++ column.Name ++ "::" ++ goTypeToJuliaType column.DataType)
    ∧ (declLines (generateJuliaCode table).1).length = table.Columns.length
    ∧ ∀ (i : Nat) (column : Column), table.Columns[i]? = some column →
        (declLines (generateJuliaCode table).1)[i]?
          = some ("const " ++ column.Name ++ "::" ++ goTypeToJuliaType column.DataType) := by
  have hall : declLines (generateJuliaCode table).1 = table.Columns.map declLine := by
    simp only [declLines, textLines_generateJuliaCode table hname hcols, List.filter_append]
    have h1 : List.filter isDeclLine ["module " ++ table.Name, ""] = [] := by
      simp only [List.filter_cons, isDeclLine_header]
      rfl
    have h2 : List.filter isDeclLine ["", "end", ""] = [] := by decide
    have h3 : List.filter isDeclLine (table.Columns.map declLine)
        = table.Columns.map declLine := by
      apply List.filter_eq_self.mpr
      intro line hline
      obtain ⟨column, _, rfl⟩ := List.mem_map.mp hline
      exact isDeclLine_declLine column
    rw [h1, h2, h3]
    simp
  refine ⟨hall, ?_, ?_⟩
  · rw [hall, List.length_map]
  · intro i column hi
    rw [hall, List.getElem?_map, hi]
    rfl

/-- The table `users{id int, name string}`. -/
theorem declLines_generateJuliaCode_witness :
    declLines (generateJuliaCode ⟨"users", [col "id" "int", col "name" "string"]⟩).1
      = ["const id::Int64", "const name::String"] :=
  (declLines_generateJuliaCode ⟨"users", [col "id" "int", col "name" "string"]⟩
    (by decide) (by decide)).1

/-- C2 as stated fails for names that contain a line feed: the table named
`T\nconst x::Any` has no column and its text has one declaration line, and
the table `T` with the single column `a\nconst b` has a text whose only
declaration line is not the line of that column. -/
theorem declLines_line_feed_counterexample :
    (⟨"T\nconst x::Any", []⟩ : Table).Columns.length = 0
    ∧ (generateJuliaCode ⟨"T\nconst x::Any", []⟩).1 = "module T\nconst x::Any\n\n\nend\n"
    ∧ declLines (generateJuliaCode ⟨"T\nconst x::Any", []⟩).1 = ["const x::Any"]
    ∧ declLines (generateJuliaCode ⟨"T", [col "a\nconst b" "int"]⟩).1 = ["const b::Int64"]
    ∧ "const " ++ (col "a\nconst b" "int").Name ++ "::"
        ++ goTypeToJuliaType (col "a\nconst b" "int").DataType ≠ "const b::Int64" := by
  decide

/-! ## Output paths -/

theorem splitOnChar_append (sep : Char) (a b : List Char) :
    splitOnChar sep (a ++ sep :: b) = splitOnChar sep a ++ splitOnChar sep b := by
  induction a with
  | nil => simp [splitOnChar]
  | cons c cs ih =>
    by_cases hc : c = sep
    · rw [List.cons_append, splitOnChar, splitOnChar]
      simp only [hc, if_true, ih, List.cons_append]
    · have e1 : splitOnChar sep (c :: (cs ++ sep :: b))
          = match splitOnChar sep (cs ++ sep :: b) with
            | [] => [[c]]
            | e :: es => (c :: e) :: es := by
        rw [splitOnChar]; simp only [hc, if_false]
      have e2 : splitOnChar sep (c :: cs)
          = match splitOnChar sep cs with
            | [] => [[c]]
            | e :: es => (c :: e) :: es := by
        rw [splitOnChar]; simp only [hc, if_false]
      rw [List.cons_append, e1, e2, ih]
      cases hs : splitOnChar sep cs with
      | nil => exact absurd hs (splitOnChar_ne_nil _ _)
      | cons e es => simp

theorem intercalate_go_snoc (acc s x : String) (l : List String) :
    String.intercalate.go acc s (l ++ [x]) = String.intercalate.go acc s l ++ s ++ x := by
  induction l generalizing acc with
  | nil => simp [String.intercalate.go]
  | cons a rest ih => simp [String.intercalate.go, ih]

theorem intercalate_snoc (s x : String) (l : List String) :
    String.intercalate s (l ++ [x])
      = if l = [] then x else String.intercalate s l ++ s ++ x := by
  cases l with
  | nil => simp [String.intercalate, String.intercalate.go]
  | cons a rest => simp [String.intercalate, intercalate_go_snoc]

theorem string_eq_empty (s : String) : s = "" ↔ s.data = [] := by
  constructor
  · intro h; rw [h]
  · intro h; exact String.ext h

theorem cleanStep_plain (rooted : Bool) (out : List (List Char)) (e : List Char)
    (h : 3 ≤ e.length) : cleanStep rooted out e = e :: out := by
  have h0 : e ≠ [] := fun h' => by rw [h'] at h; simp at h
  have h1 : e ≠ ['.'] := fun h' => by rw [h'] at h; simp at h
  have h2 : e ≠ ['.', '.'] := fun h' => by rw [h'] at h; simp at h
  simp [cleanStep, h0, h1, h2]

theorem filepathJoin_plain_file (dir file : String) (hsep : '/' ∉ file.data)
    (hlen : 3 ≤ file.data.length) : filepathJoin dir file = joinDir dir ++ file := by
  have hfile : file ≠ "" := by
    intro he
    rw [string_eq_empty] at he
    rw [he] at hlen; simp at hlen
  have hmk : String.mk file.data = file := rfl
  by_cases hdir : dir = ""
  · subst hdir
    have hhead : ¬ (file.data.head? = some '/') := by
      intro hh
      exact hsep (List.mem_of_mem_head? hh)
    simp only [filepathJoin, ne_eq, not_true_eq_false, if_false, hfile, not_false_eq_true,
      if_true, filepathClean, splitOnChar_last _ _ hsep, List.foldl_cons, List.foldl_nil,
      cleanStep_plain _ _ _ hlen, joinDir]
    simp [hhead, String.intercalate, String.intercalate.go, hmk, hfile]
  · have hdd : dir.data ≠ [] := fun he => hdir ((string_eq_empty dir).mpr he)
    have hpath : (dir ++ "/" ++ file).data = dir.data ++ '/' :: file.data := by
      simp only [String.data_append, List.append_assoc]
      rfl
    have hne : dir ++ "/" ++ file ≠ "" := by
      intro he
      rw [string_eq_empty, hpath] at he
      simp at he
    have hhead : (dir.data ++ '/' :: file.data).head? = dir.data.head? := by
      cases hd : dir.data with
      | nil => exact absurd hd hdd
      | cons c cs => rfl
    simp only [filepathJoin, ne_eq, hdir, not_false_eq_true, if_true, filepathClean, hne,
      if_false, hpath, hhead, splitOnChar_append, splitOnChar_last _ _ hsep, List.foldl_append,
      List.foldl_cons, List.foldl_nil, cleanStep_plain _ _ _ hlen, joinDir, List.reverse_cons,
      List.map_append, List.map_cons, List.map_nil, intercalate_snoc, hmk]
    generalize List.foldl (cleanStep (decide (dir.data.head? = some '/'))) []
      (splitOnChar '/' dir.data) = out
    have hnil : List.map String.mk out.reverse = [] ↔ out = [] := by simp
    have hbody : ∀ a : String, a ++ file ≠ "" := by
      intro a he
      rw [string_eq_empty, String.data_append] at he
      rw [(List.append_eq_nil.mp he).2] at hlen
      simp at hlen
    by_cases hr : dir.data.head? = some '/' <;> by_cases ho : out = []
    · simp [hr, ho]
    · simp [hr, ho, String.append_assoc]
    · simp [hr, ho, hfile]
    · have hb := hbody ("/".intercalate (List.map String.mk out.reverse) ++ "/")
      simp only [hr, ho, if_false, hb, hnil]

theorem outputPath_plain (dir : String) (table : Table) (h : '/' ∉ table.Name.data) :
    outputPath dir table = joinDir dir ++ table.Name ++ ".jl" := by
  have hdata : (table.Name ++ ".jl").data = table.Name.data ++ ['.', 'j', 'l'] := rfl
  have hsep : '/' ∉ (table.Name ++ ".jl").data := by
    rw [hdata]
    simp only [List.mem_append, not_or]
    exact ⟨h, by decide⟩
  have hlen : 3 ≤ (table.Name ++ ".jl").data.length := by
    rw [hdata]; simp
  rw [outputPath, filepathJoin_plain_file dir _ hsep hlen, String.append_assoc]

theorem outputPath_nodup_of_plain (dir : String) (m : List (String × Table))
    (hplain : ∀ e ∈ m, '/' ∉ e.2.Name.data) (hnames : (m.map fun e => e.2.Name).Nodup) :
    (m.map fun e => outputPath dir e.2).Nodup := by
  have hmap : (m.map fun e => outputPath dir e.2)
      = (m.map fun e => e.2.Name).map fun name => joinDir dir ++ name ++ ".jl" := by
    rw [List.map_map]
    exact List.map_congr_left fun e he => outputPath_plain dir e.2 (hplain e he)
  rw [hmap]
  apply hnames.map
  intro n₁ n₂ hn
  have hd := congrArg String.data hn
  simp only [String.data_append] at hd
  exact String.ext (List.append_cancel_left (List.append_cancel_right hd))

theorem storedFile_nodup_of_plain (env : Env) (dir : String) (m : List (String × Table))
    (hfiles : Function.Injective env.FileOf)
    (hplain : ∀ e ∈ m, '/' ∉ e.2.Name.data) (hnames : (m.map fun e => e.2.Name).Nodup) :
    (m.map fun e => env.FileOf (outputPath dir e.2)).Nodup := by
  have hmap : (m.map fun e => env.FileOf (outputPath dir e.2))
      = (m.map fun e => outputPath dir e.2).map env.FileOf := by
    rw [List.map_map]
    rfl
  rw [hmap]
  exact (outputPath_nodup_of_plain dir m hplain hnames).map hfiles

/-! ## The first loop -/

theorem collectTables_reach (env : Env) (schema : String) (pre rest : List String)
    (m : List (String × Table)) (w : World)
    (hpre : ∀ item ∈ pre, ∃ columnData table,
      env.FindColumns schema item = .ok columnData ∧ env.Convert columnData = .ok table) :
    ∃ m', collectTables env schema (pre ++ rest) m w
      = collectTables env schema rest m' ⟨w.files, w.trace ++ fetchTrace schema pre⟩ := by
  induction pre generalizing m w with
  | nil => exact ⟨m, by simp [fetchTrace]⟩
  | cons item pre ih =>
    obtain ⟨columnData, table, hq, hc⟩ := hpre item (List.mem_cons_self _ _)
    obtain ⟨m', hm'⟩ := ih (assocSet m item table)
      ((w.log (.findColumns schema item)).log (.convert item))
      (fun i hi => hpre i (List.mem_cons_of_mem _ hi))
    refine ⟨m', ?_⟩
    simp only [List.cons_append, collectTables, hq, hc]
    refine hm'.trans ?_
    simp [World.log, fetchTrace, List.append_assoc]

theorem assocSet_ne_nil {α : Type} (m : List (String × α)) (k : String) (v : α) :
    assocSet m k v ≠ [] := by
  cases m with
  | nil => simp [assocSet]
  | cons e rest =>
    obtain ⟨k', v'⟩ := e
    simp only [assocSet]
    split <;> simp

theorem collectTables_ne_nil (env : Env) (schema : String) (items : List String)
    (m m' : List (String × Table)) (w : World)
    (h : (collectTables env schema items m w).1 = .ok m') (hne : m ≠ [] ∨ items ≠ []) :
    m' ≠ [] := by
  induction items generalizing m w with
  | nil =>
    simp only [collectTables, Except.ok.injEq] at h
    subst h
    simpa using hne
  | cons item rest ih =>
    simp only [collectTables] at h
    cases hq : env.FindColumns schema item with
    | error err => simp [hq] at h
    | ok columnData =>
      cases hc : env.Convert columnData with
      | error err => simp [hq, hc] at h
      | ok table =>
        simp only [hq, hc] at h
        exact ih _ _ h (Or.inl (assocSet_ne_nil _ _ _))

theorem collectTables_no_sentinel (env : Env) (schema : String) (items : List String)
    (m : List (String × Table)) (w : World) (err : Error)
    (h : (collectTables env schema items m w).1 = .error err) : err ≠ .noTablesMatched := by
  induction items generalizing m w with
  | nil => simp [collectTables] at h
  | cons item rest ih =>
    simp only [collectTables] at h
    split at h
    · simp only [Except.error.injEq] at h
      rw [← h]; simp
    · split at h
      · simp only [Except.error.injEq] at h
        rw [← h]; simp
      · exact ih _ _ h

theorem writeTables_cons (env : Env) (dir : String) (table : Table) (rest : List Table)
    (w : World) :
    writeTables env dir (table :: rest) w
      = match env.WriteFileErr w.files (outputPath dir table) (generateJuliaCode table).1 with
        | some err =>
          (some (.ext err),
            ⟨env.AfterFailedWrite w.files (outputPath dir table) (generateJuliaCode table).1,
              w.trace ++ [.writeFile (outputPath dir table) (generateJuliaCode table).1]⟩)
        | none =>
          writeTables env dir rest
            ⟨assocSet w.files (env.FileOf (outputPath dir table)) (generateJuliaCode table).1,
              w.trace ++ [.writeFile (outputPath dir table) (generateJuliaCode table).1]⟩ := by
  simp only [writeTables, generateJuliaCode_eq, outputPath]

theorem writeTables_error (env : Env) (dir : String) (tables : List Table) (w : World)
    (err : Error) (h : (writeTables env dir tables w).1 = some err) :
    ∃ e, err = .ext e := by
  induction tables generalizing w with
  | nil => simp [writeTables] at h
  | cons table rest ih =>
    rw [writeTables_cons] at h
    cases hw : env.WriteFileErr w.files (outputPath dir table) (generateJuliaCode table).1 with
    | some e =>
      simp only [hw, Option.some.injEq] at h
      exact ⟨e, h.symm⟩
    | none =>
      simp only [hw] at h
      exact ih _ h

theorem columnQueries_fetchTrace (schema : String) (items : List String) :
    columnQueries (fetchTrace schema items) = items := by
  induction items with
  | nil => rfl
  | cons item rest ih =>
    have h : fetchTrace schema (item :: rest)
        = .findColumns schema item :: .convert item :: fetchTrace schema rest := by
      simp [fetchTrace]
    rw [h]
    simp only [columnQueries, List.filterMap_cons] at ih ⊢
    rw [ih]

theorem fileWrites_fetchTrace (schema : String) (items : List String) :
    fileWrites (fetchTrace schema items) = [] := by
  induction items with
  | nil => rfl
  | cons item rest ih =>
    have h : fetchTrace schema (item :: rest)
        = .findColumns schema item :: .convert item :: fetchTrace schema rest := by
      simp [fetchTrace]
    rw [h]
    simp only [fileWrites, List.filterMap_cons] at ih ⊢
    rw [ih]

theorem columnQueries_append (a b : List Event) :
    columnQueries (a ++ b) = columnQueries a ++ columnQueries b := by
  simp [columnQueries]

theorem fileWrites_append (a b : List Event) :
    fileWrites (a ++ b) = fileWrites a ++ fileWrites b := by
  simp [fileWrites]

theorem split_at_index (l : List String) (k : Nat) (item : String) (h : l[k]? = some item) :
    l = l.take k ++ item :: l.drop (k + 1) ∧ l.take (k + 1) = l.take k ++ [item] := by
  induction l generalizing k with
  | nil => simp at h
  | cons x xs ih =>
    cases k with
    | zero =>
      simp only [List.getElem?_cons_zero, Option.some.injEq] at h
      subst h
      simp
    | succ k =>
      simp only [List.getElem?_cons_succ] at h
      obtain ⟨h1, h2⟩ := ih k h
      constructor
      · simp only [List.take_succ_cons, List.drop_succ_cons, List.cons_append]
        rw [← h1]
      · simp only [List.take_succ_cons, List.cons_append] at h2 ⊢
        rw [h2]

/-! ## The two loops on a run without error -/

theorem collectTables_ok (env : Env) (schema : String) (items : List String)
    (m m' : List (String × Table)) (w w₀ : World)
    (h : (collectTables env schema items m w₀).1 = .ok m') :
    collectTables env schema items m w = (.ok m', ⟨w.files, w.trace ++ fetchTrace schema items⟩) := by
  induction items generalizing m w w₀ with
  | nil =>
    simp only [collectTables, Except.ok.injEq] at h
    simp [collectTables, h, fetchTrace]
  | cons item rest ih =>
    simp only [collectTables] at h ⊢
    cases hq : env.FindColumns schema item with
    | error err => simp [hq] at h
    | ok columnData =>
      cases hc : env.Convert columnData with
      | error err => simp [hq, hc] at h
      | ok table =>
        simp only [hq, hc] at h ⊢
        rw [ih _ _ _ h]
        simp [World.log, fetchTrace, List.append_assoc]

theorem writeTables_success (env : Env) (dir : String) (tables : List Table) (w : World)
    (h : (writeTables env dir tables w).1 = none) :
    writeTables env dir tables w
      = (none, ⟨applyWrites w.files (tables.map (storedFile env dir)),
          w.trace ++ tables.map fun table =>
            .writeFile (outputPath dir table) (generateJuliaCode table).1⟩) := by
  induction tables generalizing w with
  | nil => simp [writeTables, applyWrites]
  | cons table rest ih =>
    rw [writeTables_cons] at h ⊢
    cases hw : env.WriteFileErr w.files (outputPath dir table) (generateJuliaCode table).1 with
    | some e => simp [hw] at h
    | none =>
      simp only [hw] at h ⊢
      rw [ih _ h]
      simp [applyWrites, storedFile, List.append_assoc]

theorem rangeOrder_perm {α : Type} (seed : List Nat) (l : List α) :
    (rangeOrder seed l).Perm l := by
  induction l generalizing seed with
  | nil => cases seed <;> simp [rangeOrder]
  | cons x xs ih =>
    cases seed with
    | nil => simp [rangeOrder]
    | cons s seed =>
      simp only [rangeOrder]
      have hlen : (rangeOrder seed xs).length = xs.length := (ih seed).length_eq
      have hle : s % (xs.length + 1) ≤ (rangeOrder seed xs).length := by
        rw [hlen]; exact Nat.lt_succ_iff.mp (Nat.mod_lt _ (Nat.succ_pos _))
      exact (List.perm_insertIdx x _ hle).trans ((ih seed).cons x)

theorem insertIdx_length_append {α : Type} (a b : List α) (x : α) :
    List.insertIdx a.length x (a ++ b) = a ++ x :: b := by
  induction a with
  | nil => exact List.insertIdx_zero b x
  | cons c cs ih =>
    rw [List.length_cons, List.cons_append, List.insertIdx_succ_cons, ih, List.cons_append]

theorem rangeOrder_surjective {α : Type} (l order : List α) (h : order.Perm l) :
    ∃ seed, rangeOrder seed l = order := by
  induction l generalizing order with
  | nil => exact ⟨[], by rw [List.Perm.eq_nil h]; rfl⟩
  | cons x xs ih =>
    have hx : x ∈ order := h.mem_iff.mpr (List.mem_cons_self _ _)
    obtain ⟨a, b, rfl⟩ := List.append_of_mem hx
    have hperm : (a ++ b).Perm xs :=
      (List.perm_middle.symm.trans h.symm.symm).cons_inv
    obtain ⟨seed, hseed⟩ := ih (a ++ b) hperm
    refine ⟨a.length :: seed, ?_⟩
    have hlen : a.length < xs.length + 1 := by
      have := hperm.length_eq
      simp only [List.length_append] at this
      omega
    simp only [rangeOrder, hseed, Nat.mod_eq_of_lt hlen]
    exact insertIdx_length_append a b x

/-! ## The file list -/

theorem lookup_cons {α : Type} (k' k₀ : String) (v₀ : α) (rest : List (String × α)) :
    List.lookup k' ((k₀, v₀) :: rest) = if k' = k₀ then some v₀ else List.lookup k' rest := by
  by_cases h : k' = k₀
  · subst h; simp [List.lookup]
  · have hne : (k' == k₀) = false := beq_eq_false_iff_ne.mpr h
    simp [List.lookup, hne, h]

theorem lookup_assocSet {α : Type} (m : List (String × α)) (k k' : String) (v : α) :
    (assocSet m k v).lookup k' = if k' = k then some v else m.lookup k' := by
  induction m with
  | nil => simp [assocSet, lookup_cons]
  | cons e rest ih =>
    obtain ⟨k₀, v₀⟩ := e
    by_cases h₀ : k₀ = k
    · subst h₀
      by_cases h : k' = k₀ <;> simp [assocSet, lookup_cons, h]
    · by_cases h : k' = k
      · subst h
        simp [assocSet, lookup_cons, h₀, ih, Ne.symm h₀]
      · simp [assocSet, lookup_cons, h₀, ih, h]

theorem assocSet_same {α : Type} (m : List (String × α)) (k : String) (v : α)
    (h : m.lookup k = some v) : assocSet m k v = m := by
  induction m with
  | nil => simp [List.lookup] at h
  | cons e rest ih =>
    obtain ⟨k₀, v₀⟩ := e
    rw [lookup_cons] at h
    by_cases h₀ : k = k₀
    · subst h₀
      simp only [if_true, Option.some.injEq] at h
      simp [assocSet, h]
    · simp only [h₀, if_false] at h
      simp [assocSet, Ne.symm h₀, ih h]

theorem applyWrites_cons (files : List (String × String)) (write : String × String)
    (writes : List (String × String)) :
    applyWrites files (write :: writes) = applyWrites (assocSet files write.1 write.2) writes :=
  rfl

theorem lookup_applyWrites_other (files writes : List (String × String)) (path : String)
    (h : path ∉ writes.map Prod.fst) :
    (applyWrites files writes).lookup path = files.lookup path := by
  induction writes generalizing files with
  | nil => rfl
  | cons write rest ih =>
    simp only [List.map_cons, List.mem_cons, not_or] at h
    rw [applyWrites_cons, ih _ h.2, lookup_assocSet, if_neg h.1]

theorem lookup_applyWrites (files writes : List (String × String))
    (hnodup : (writes.map Prod.fst).Nodup) (write : String × String) (h : write ∈ writes) :
    (applyWrites files writes).lookup write.1 = some write.2 := by
  induction writes generalizing files with
  | nil => simp at h
  | cons first rest ih =>
    simp only [List.map_cons, List.nodup_cons] at hnodup
    rw [applyWrites_cons]
    rcases List.mem_cons.mp h with rfl | h
    · rw [lookup_applyWrites_other _ _ _ hnodup.1, lookup_assocSet, if_pos rfl]
    · exact ih _ hnodup.2 h

theorem applyWrites_same (files writes : List (String × String))
    (h : ∀ write ∈ writes, files.lookup write.1 = some write.2) :
    applyWrites files writes = files := by
  induction writes with
  | nil => rfl
  | cons first rest ih =>
    rw [applyWrites_cons, assocSet_same _ _ _ (h first (List.mem_cons_self _ _))]
    exact ih (fun write hw => h write (List.mem_cons_of_mem _ hw))

/-! ## A run without error -/

theorem matchTablesOf_eq (env : Env) (url schema : String) (tables : List String)
    (m : List (String × Table)) (w : World)
    (hlist : env.GetAllTables url schema = .ok tables)
    (hm : (collectTables env schema tables [] w).1 = .ok m) :
    matchTablesOf env url schema = some m := by
  have h := collectTables_ok env schema tables [] m ⟨[], []⟩ w hm
  simp [matchTablesOf, hlist, h]

theorem matchTablesOf_some (env : Env) (url schema : String) (m : List (String × Table))
    (h : matchTablesOf env url schema = some m) :
    ∃ tables, env.GetAllTables url schema = .ok tables
      ∧ ∀ w, collectTables env schema tables [] w
          = (.ok m, ⟨w.files, w.trace ++ fetchTrace schema tables⟩) := by
  simp only [matchTablesOf] at h
  cases hl : env.GetAllTables url schema with
  | error err => simp [hl] at h
  | ok tables =>
    simp only [hl] at h
    cases hc : (collectTables env schema tables [] ⟨[], []⟩).1 with
    | error err => simp [hc] at h
    | ok m' =>
      simp only [hc, Option.some.injEq] at h
      subst h
      exact ⟨tables, rfl, fun w => collectTables_ok env schema tables [] m' w _ hc⟩

theorem applyWrites_stored (env : Env) (dir : String) (files : List (String × String))
    (tables : List Table)
    (hnodup : (tables.map fun table => env.FileOf (outputPath dir table)).Nodup)
    (table : Table) (h : table ∈ tables) :
    (applyWrites files (tables.map (storedFile env dir))).lookup
      (env.FileOf (outputPath dir table)) = some (generateJuliaCode table).1 := by
  have hkeys : (tables.map (storedFile env dir)).map Prod.fst
      = tables.map fun table => env.FileOf (outputPath dir table) := by
    simp [List.map_map, Function.comp_def, storedFile]
  exact lookup_applyWrites files _ (by rw [hkeys]; exact hnodup) (storedFile env dir table)
    (List.mem_map.mpr ⟨table, h, rfl⟩)

theorem writeTables_rewrite (env : Env) (dir : String) (tables : List Table) (w : World)
    (hheld : ∀ table ∈ tables,
      w.files.lookup (env.FileOf (outputPath dir table)) = some (generateJuliaCode table).1) :
    ((writeTables env dir tables w).1 = none ↔
      ∀ table ∈ tables,
        env.WriteFileErr w.files (outputPath dir table) (generateJuliaCode table).1 = none)
    ∧ ((writeTables env dir tables w).1 = none → (writeTables env dir tables w).2.files = w.files) := by
  induction tables generalizing w with
  | nil => simp [writeTables]
  | cons table rest ih =>
    rw [writeTables_cons]
    cases hw : env.WriteFileErr w.files (outputPath dir table) (generateJuliaCode table).1 with
    | some e =>
      refine ⟨⟨fun h => by simp at h, fun h => ?_⟩, fun h => by simp at h⟩
      have := h table (List.mem_cons_self _ _)
      rw [hw] at this
      exact absurd this (by simp)
    | none =>
      simp only
      have hsame : assocSet w.files (env.FileOf (outputPath dir table))
          (generateJuliaCode table).1 = w.files :=
        assocSet_same _ _ _ (hheld table (List.mem_cons_self _ _))
      rw [hsame]
      obtain ⟨h1, h2⟩ := ih
        ⟨w.files, w.trace ++ [.writeFile (outputPath dir table) (generateJuliaCode table).1]⟩
        (fun t ht => hheld t (List.mem_cons_of_mem _ ht))
      refine ⟨⟨fun h t ht => ?_, fun h => ?_⟩, h2⟩
      · rcases List.mem_cons.mp ht with rfl | ht
        · exact hw
        · exact h1.mp h t ht
      · exact h1.mpr (fun t ht => h t (List.mem_cons_of_mem _ ht))

theorem fromPostgreSqlDataSource_writes (env : Env) (seed : List Nat)
    (generator : DefaultGenerator) (url dir schema : String) (w : World)
    (tables : List String) (m : List (String × Table))
    (hlist : env.GetAllTables url schema = .ok tables)
    (hm : matchTablesOf env url schema = some m) (hne : m ≠ []) :
    fromPostgreSqlDataSource env seed generator url dir schema w
      = writeTables env dir ((rangeOrder seed m).map Prod.snd)
          ⟨w.files, w.trace ++ [.connect url, .getAllTables schema]
            ++ fetchTrace schema tables⟩ := by
  obtain ⟨tables', hlist', hcollect⟩ := matchTablesOf_some env url schema m hm
  rw [hlist] at hlist'
  cases hlist'
  have hlen : m.length ≠ 0 := fun h => hne (List.length_eq_zero.mp h)
  simp only [fromPostgreSqlDataSource, hlist, hcollect, hlen, if_false]
  simp [World.log, List.append_assoc]

theorem fromPostgreSqlDataSource_none (env : Env) (seed : List Nat)
    (generator : DefaultGenerator) (url dir schema : String) (w : World)
    (h : (fromPostgreSqlDataSource env seed generator url dir schema w).1 = none) :
    ∃ tables m, env.GetAllTables url schema = .ok tables
      ∧ matchTablesOf env url schema = some m ∧ m ≠ [] := by
  simp only [fromPostgreSqlDataSource] at h
  cases hl : env.GetAllTables url schema with
  | error err => simp [hl] at h
  | ok tables =>
    simp only [hl] at h
    cases hc : collectTables env schema tables []
        ((w.log (.connect url)).log (.getAllTables schema)) with
    | mk res w' =>
      cases res with
      | error err => simp [hc] at h
      | ok m =>
        simp only [hc] at h
        by_cases hlen : m.length = 0
        · simp [hlen] at h
        · exact ⟨tables, m, rfl, matchTablesOf_eq env url schema tables m _ hl (by rw [hc]),
            fun e => hlen (by simp [e])⟩

theorem PGJuliaGen_none (env : Env) (seed : List Nat) (outputDir url schema : String)
    (w : World) (h : (PGJuliaGen env seed outputDir url schema w).1 = none) :
    ∃ generator, ∀ seed' w', PGJuliaGen env seed' outputDir url schema w'
      = fromPostgreSqlDataSource env seed' generator url outputDir schema
          ⟨w'.files, w'.trace ++ [.mkdir outputDir, .newConfig "gozero",
            .newGenerator outputDir]⟩ := by
  simp only [PGJuliaGen, generateModels] at h
  cases hd : env.MkdirIfNotExist outputDir with
  | some err => simp [hd] at h
  | none =>
    cases hc : env.NewConfig "gozero" with
    | error err => simp [hd, hc] at h
    | ok cfg =>
      cases hg : env.NewDefaultGenerator outputDir cfg with
      | error err => simp [hd, hc, hg] at h
      | ok generator =>
        refine ⟨generator, fun seed' w' => ?_⟩
        simp [PGJuliaGen, generateModels, hd, hc, hg, World.log]

/-- C9 (amended): when a run of `PGJuliaGen` returns no error and the output
paths of the collected tables name pairwise different files, a second run on
the same environment, starting from the files the first run left and with any
other iteration order of `matchTables`, returns no error exactly when every
file the first run wrote can be written again with its content, and then it
leaves the files exactly as the first run left them. -/
theorem second_run_same_files (env : Env) (seed₁ seed₂ : List Nat)
    (outputDir url schema : String) (w : World) (m : List (String × Table))
    (hfirst : (PGJuliaGen env seed₁ outputDir url schema w).1 = none)
    (hm : matchTablesOf env url schema = some m)
    (hdistinct : (m.map fun e => env.FileOf (outputPath outputDir e.2)).Nodup) :
    ((PGJuliaGen env seed₂ outputDir url schema
        (PGJuliaGen env seed₁ outputDir url schema w).2).1 = none ↔
      ∀ e ∈ m, env.WriteFileErr (PGJuliaGen env seed₁ outputDir url schema w).2.files
        (outputPath outputDir e.2) (generateJuliaCode e.2).1 = none)
    ∧ ((PGJuliaGen env seed₂ outputDir url schema
        (PGJuliaGen env seed₁ outputDir url schema w).2).1 = none →
      (PGJuliaGen env seed₂ outputDir url schema
        (PGJuliaGen env seed₁ outputDir url schema w).2).2.files
      = (PGJuliaGen env seed₁ outputDir url schema w).2.files) := by
  obtain ⟨generator, hgen⟩ := PGJuliaGen_none env seed₁ outputDir url schema w hfirst
  rw [hgen seed₁ w] at hfirst
  obtain ⟨tables, m', hlist, hm', hne⟩ :=
    fromPostgreSqlDataSource_none env seed₁ generator url outputDir schema _ hfirst
  rw [hm] at hm'
  cases hm'
  have hwrites := fun seed w' => fromPostgreSqlDataSource_writes env seed generator url
    outputDir schema w' tables m hlist hm hne
  rw [hwrites] at hfirst
  have hrun₁ := (hgen seed₁ w).trans ((hwrites seed₁ _).trans
    (writeTables_success env outputDir _ _ hfirst))
  rw [hrun₁, hgen seed₂, hwrites seed₂]
  have hperm₁ := rangeOrder_perm seed₁ m
  have hperm₂ := rangeOrder_perm seed₂ m
  have hfiles : (((rangeOrder seed₁ m).map Prod.snd).map fun table =>
      env.FileOf (outputPath outputDir table))
      = (rangeOrder seed₁ m).map fun e => env.FileOf (outputPath outputDir e.2) := by
    simp [List.map_map, Function.comp_def]
  have hheld : ∀ table ∈ (rangeOrder seed₂ m).map Prod.snd,
      (applyWrites w.files (((rangeOrder seed₁ m).map Prod.snd).map
        (storedFile env outputDir))).lookup (env.FileOf (outputPath outputDir table))
        = some (generateJuliaCode table).1 := by
    intro table ht
    obtain ⟨e, he, rfl⟩ := List.mem_map.mp ht
    apply applyWrites_stored env outputDir w.files
    · rw [hfiles]
      exact (hperm₁.map _).nodup_iff.mpr hdistinct
    · exact List.mem_map.mpr ⟨e, hperm₁.mem_iff.mpr (hperm₂.mem_iff.mp he), rfl⟩
  obtain ⟨h1, h2⟩ := writeTables_rewrite env outputDir ((rangeOrder seed₂ m).map Prod.snd)
    ⟨applyWrites w.files (((rangeOrder seed₁ m).map Prod.snd).map (storedFile env outputDir)),
      _⟩ hheld
  refine ⟨h1.trans ⟨fun h e he => ?_, fun h table ht => ?_⟩, h2⟩
  · exact h e.2 (List.mem_map.mpr ⟨e, hperm₂.mem_iff.mpr he, rfl⟩)
  · obtain ⟨e, he, rfl⟩ := List.mem_map.mp ht
    exact h e (hperm₂.mem_iff.mp he)

/-- Two runs over `users` and `orders` on a file system without links and
with a stale `out/users.jl`, the second visiting the tables in the other
order: it returns no error and leaves the files as the first run left them. -/
theorem second_run_same_files_witness :
    (PGJuliaGen (catalogueEnv ["users", "orders"] shopCatalogue []) [1] "out" "postgres://db"
        "public" (PGJuliaGen (catalogueEnv ["users", "orders"] shopCatalogue []) [] "out"
          "postgres://db" "public" ⟨[("out/users.jl", "stale")], []⟩).2).1 = none
    ∧ (PGJuliaGen (catalogueEnv ["users", "orders"] shopCatalogue []) [1] "out" "postgres://db"
        "public" (PGJuliaGen (catalogueEnv ["users", "orders"] shopCatalogue []) [] "out"
          "postgres://db" "public" ⟨[("out/users.jl", "stale")], []⟩).2).2.files
      = (PGJuliaGen (catalogueEnv ["users", "orders"] shopCatalogue []) [] "out"
          "postgres://db" "public" ⟨[("out/users.jl", "stale")], []⟩).2.files :=
  have h := second_run_same_files (catalogueEnv ["users", "orders"] shopCatalogue []) [] [1]
    "out" "postgres://db" "public" ⟨[("out/users.jl", "stale")], []⟩
    [("users", ⟨"users", [col "id" "int", col "name" "string"]⟩),
     ("orders", ⟨"orders", [col "id" "int64", col "total" "float64"]⟩)]
    (by decide) (by decide) (by decide)
  ⟨h.1.mpr (fun _ _ => rfl), h.2 (h.1.mpr (fun _ _ => rfl))⟩

/-- C9 as stated fails in three ways.  When two table names give one output
path: with the tables `b` and `a/../b` both runs return no error, the first,
visiting `b` first, leaves the code of `a/../b` in `out/b.jl`, and the second,
visiting `a/../b` first, leaves the code of `b` there.  When two output paths
name one file: with `out/orders.jl` a hard link to `out/users.jl` both runs
return no error and leave different content in that file.  And when the files
the first run created cannot be written again: the first run returns no error
and the second returns the error of `os.WriteFile`. -/
theorem second_run_counterexample :
    (PGJuliaGen (catalogueEnv ["b", "a/../b"] clashCatalogue []) [] "out" "postgres://db"
        "public" ⟨[], []⟩).1 = none
    ∧ (PGJuliaGen (catalogueEnv ["b", "a/../b"] clashCatalogue []) [] "out" "postgres://db"
        "public" ⟨[], []⟩).2.files
      = [("out/b.jl", "module a/../b\n\nconst note::String\n\nend\n")]
    ∧ (PGJuliaGen (catalogueEnv ["b", "a/../b"] clashCatalogue []) [1] "out" "postgres://db"
        "public" (PGJuliaGen (catalogueEnv ["b", "a/../b"] clashCatalogue []) [] "out"
          "postgres://db" "public" ⟨[], []⟩).2).1 = none
    ∧ (PGJuliaGen (catalogueEnv ["b", "a/../b"] clashCatalogue []) [1] "out" "postgres://db"
        "public" (PGJuliaGen (catalogueEnv ["b", "a/../b"] clashCatalogue []) [] "out"
          "postgres://db" "public" ⟨[], []⟩).2).2.files
      = [("out/b.jl", "module b\n\nconst id::Int64\n\nend\n")]
    ∧ (PGJuliaGen linkedEnv [] "out" "postgres://db" "public" ⟨[], []⟩).1 = none
    ∧ (PGJuliaGen linkedEnv [] "out" "postgres://db" "public" ⟨[], []⟩).2.files
      = [("out/users.jl", "module orders\n\nconst id::Int64\nconst total::Float64\n\nend\n")]
    ∧ (PGJuliaGen linkedEnv [1] "out" "postgres://db" "public"
        (PGJuliaGen linkedEnv [] "out" "postgres://db" "public" ⟨[], []⟩).2).1 = none
    ∧ (PGJuliaGen linkedEnv [1] "out" "postgres://db" "public"
        (PGJuliaGen linkedEnv [] "out" "postgres://db" "public" ⟨[], []⟩).2).2.files
      = [("out/users.jl", "module users\n\nconst id::Int64\nconst name::String\n\nend\n")]
    ∧ (PGJuliaGen readOnlyEnv [] "out" "postgres://db" "public" ⟨[], []⟩).1 = none
    ∧ (PGJuliaGen readOnlyEnv [] "out" "postgres://db" "public"
        (PGJuliaGen readOnlyEnv [] "out" "postgres://db" "public" ⟨[], []⟩).2).1
      = some (.ext ⟨"open out/users.jl: permission denied"⟩) := by
  decide

/-! ## The orchestrator: error exits -/

/-- C8: when `MkdirIfNotExist` fails for the output directory, `PGJuliaGen`
returns that error unchanged; the only call of the run is the directory
creation (no configuration is loaded, no connection opened, no query sent, no
file written) and the files are as before. -/
theorem PGJuliaGen_mkdir_failure (env : Env) (seed : List Nat) (outputDir url schema : String)
    (w : World) (err : ExtError) (h : env.MkdirIfNotExist outputDir = some err) :
    PGJuliaGen env seed outputDir url schema w
      = (some (.ext err), ⟨w.files, w.trace ++ [.mkdir outputDir]⟩)
    ∧ columnQueries (PGJuliaGen env seed outputDir url schema w).2.trace = columnQueries w.trace
    ∧ fileWrites (PGJuliaGen env seed outputDir url schema w).2.trace = fileWrites w.trace := by
  have hrun : PGJuliaGen env seed outputDir url schema w
      = (some (.ext err), ⟨w.files, w.trace ++ [.mkdir outputDir]⟩) := by
    simp [PGJuliaGen, h, World.log]
  refine ⟨hrun, ?_, ?_⟩
  · rw [hrun, columnQueries_append]
    simp [columnQueries]
  · rw [hrun, fileWrites_append]
    simp [fileWrites]

/-- An output directory under a parent that refuses the creation. -/
theorem PGJuliaGen_mkdir_failure_witness :
    ({ catalogueEnv ["users"] shopCatalogue [] with
        MkdirIfNotExist := fun dir => some ⟨"mkdir " ++ dir ++ ": permission denied"⟩ } : Env
      ).MkdirIfNotExist "/proc/out" = some ⟨"mkdir /proc/out: permission denied"⟩
    ∧ PGJuliaGen { catalogueEnv ["users"] shopCatalogue [] with
        MkdirIfNotExist := fun dir => some ⟨"mkdir " ++ dir ++ ": permission denied"⟩ }
        [] "/proc/out" "postgres://db" "public" ⟨[("keep.txt", "x")], []⟩
      = (some (.ext ⟨"mkdir /proc/out: permission denied"⟩),
          ⟨[("keep.txt", "x")], [] ++ [.mkdir "/proc/out"]⟩) :=
  ⟨by decide, (PGJuliaGen_mkdir_failure _ _ _ _ _ _ _ (by decide)).1⟩

/-- C5: when the reader lists no table, `fromPostgreSqlDataSource` returns the
error of line 99, whose message is `no tables matched`, makes no
`os.WriteFile` call and leaves the files as they were; and it returns that
error only when the listing succeeded and `matchTables` is empty after the
first loop, which is when the listing is empty. -/
theorem no_tables_matched (env : Env) (seed : List Nat) (generator : DefaultGenerator)
    (url dir schema : String) (w : World) :
    (env.GetAllTables url schema = .ok [] →
      fromPostgreSqlDataSource env seed generator url dir schema w
        = (some .noTablesMatched, ⟨w.files, w.trace ++ [.connect url, .getAllTables schema]⟩)
      ∧ Error.message .noTablesMatched = "no tables matched"
      ∧ fileWrites (fromPostgreSqlDataSource env seed generator url dir schema w).2.trace
          = fileWrites w.trace)
    ∧ ((fromPostgreSqlDataSource env seed generator url dir schema w).1 = some .noTablesMatched →
      ∃ tables w',
        env.GetAllTables url schema = .ok tables
        ∧ collectTables env schema tables []
            ((w.log (.connect url)).log (.getAllTables schema)) = (.ok [], w')
        ∧ tables = []) := by
  constructor
  · intro h
    have hrun : fromPostgreSqlDataSource env seed generator url dir schema w
        = (some .noTablesMatched, ⟨w.files, w.trace ++ [.connect url, .getAllTables schema]⟩) := by
      simp [fromPostgreSqlDataSource, h, collectTables, World.log]
    refine ⟨hrun, rfl, ?_⟩
    rw [hrun]
    simp [fileWrites_append, fileWrites]
  · intro h
    simp only [fromPostgreSqlDataSource] at h
    cases hl : env.GetAllTables url schema with
    | error err => simp [hl] at h
    | ok tables =>
      simp only [hl] at h
      cases hc : collectTables env schema tables []
          ((w.log (.connect url)).log (.getAllTables schema)) with
      | mk res w' =>
        cases res with
        | error err =>
          simp only [hc, Option.some.injEq] at h
          have := collectTables_no_sentinel env schema tables [] _ err (by rw [hc])
          exact absurd h this
        | ok m =>
          simp only [hc] at h
          by_cases hm : m.length = 0
          · have hnil : m = [] := List.length_eq_zero.mp hm
            subst hnil
            by_cases ht : tables = []
            · exact ⟨tables, w', rfl, by rw [hc], ht⟩
            · exact absurd rfl
                (collectTables_ne_nil env schema tables [] [] _ (by rw [hc]) (Or.inr ht))
          · simp only [hm, if_false] at h
            obtain ⟨e, he⟩ := writeTables_error _ _ _ _ _ h
            exact absurd he (by simp)

/-- A schema without tables, and a file from an earlier run that stays. -/
theorem no_tables_matched_witness :
    (catalogueEnv [] shopCatalogue []).GetAllTables "postgres://db" "public" = .ok []
    ∧ fromPostgreSqlDataSource (catalogueEnv [] shopCatalogue []) [] ⟨"out", ⟨"gozero"⟩⟩
        "postgres://db" "out" "public" ⟨[("out/old.jl", "x")], []⟩
      = (some .noTablesMatched,
          ⟨[("out/old.jl", "x")], [.connect "postgres://db", .getAllTables "public"]⟩) :=
  ⟨rfl, ((no_tables_matched (catalogueEnv [] shopCatalogue []) [] ⟨"out", ⟨"gozero"⟩⟩
    "postgres://db" "out" "public" ⟨[("out/old.jl", "x")], []⟩).1 rfl).1⟩

/-- C7: when the run reaches the k-th listed table (the query and the
conversion of every earlier table succeeded) and `FindColumns` fails for it,
`fromPostgreSqlDataSource` returns that error unchanged; the column queries
made are those of the tables up to the k-th and none for the later ones, no
`os.WriteFile` call is made and the files are as before. -/
theorem column_query_failure (env : Env) (seed : List Nat) (generator : DefaultGenerator)
    (url dir schema : String) (w : World) (tables : List String) (k : Nat) (item : String)
    (err : ExtError)
    (hlist : env.GetAllTables url schema = .ok tables)
    (hk : tables[k]? = some item)
    (hreach : ∀ earlier ∈ tables.take k, ∃ columnData table,
      env.FindColumns schema earlier = .ok columnData ∧ env.Convert columnData = .ok table)
    (hfail : env.FindColumns schema item = .error err) :
    fromPostgreSqlDataSource env seed generator url dir schema w
      = (some (.ext err),
          ⟨w.files, w.trace ++ [.connect url, .getAllTables schema]
            ++ fetchTrace schema (tables.take k) ++ [.findColumns schema item]⟩)
    ∧ columnQueries (fromPostgreSqlDataSource env seed generator url dir schema w).2.trace
        = columnQueries w.trace ++ tables.take (k + 1)
    ∧ fileWrites (fromPostgreSqlDataSource env seed generator url dir schema w).2.trace
        = fileWrites w.trace := by
  obtain ⟨hsplit, htake⟩ := split_at_index tables k item hk
  have hrun : fromPostgreSqlDataSource env seed generator url dir schema w
      = (some (.ext err),
          ⟨w.files, w.trace ++ [.connect url, .getAllTables schema]
            ++ fetchTrace schema (tables.take k) ++ [.findColumns schema item]⟩) := by
    obtain ⟨m', hm'⟩ := collectTables_reach env schema (tables.take k)
      (item :: tables.drop (k + 1)) [] ((w.log (.connect url)).log (.getAllTables schema)) hreach
    rw [← hsplit] at hm'
    simp only [fromPostgreSqlDataSource, hlist, hm', collectTables, hfail]
    simp [World.log, List.append_assoc]
  refine ⟨hrun, ?_, ?_⟩
  · rw [hrun, htake]
    simp only [columnQueries_append, columnQueries_fetchTrace, List.append_assoc]
    simp [columnQueries]
  · rw [hrun]
    simp only [fileWrites_append, fileWrites_fetchTrace, List.append_assoc]
    simp [fileWrites]

/-- Five listed tables, the query of the third one fails. -/
theorem column_query_failure_witness :
    fromPostgreSqlDataSource (catalogueEnv ["a", "b", "c", "d", "e"] shopCatalogue ["c"]) []
        ⟨"out", ⟨"gozero"⟩⟩ "postgres://db" "out" "public" ⟨[], []⟩
      = (some (.ext ⟨"query failed: c"⟩),
          ⟨[], [.connect "postgres://db", .getAllTables "public",
            .findColumns "public" "a", .convert "a", .findColumns "public" "b", .convert "b",
            .findColumns "public" "c"]⟩)
    ∧ columnQueries (fromPostgreSqlDataSource
        (catalogueEnv ["a", "b", "c", "d", "e"] shopCatalogue ["c"]) []
        ⟨"out", ⟨"gozero"⟩⟩ "postgres://db" "out" "public" ⟨[], []⟩).2.trace = ["a", "b", "c"]
    ∧ fileWrites (fromPostgreSqlDataSource
        (catalogueEnv ["a", "b", "c", "d", "e"] shopCatalogue ["c"]) []
        ⟨"out", ⟨"gozero"⟩⟩ "postgres://db" "out" "public" ⟨[], []⟩).2.trace = [] :=
  column_query_failure (catalogueEnv ["a", "b", "c", "d", "e"] shopCatalogue ["c"]) []
    ⟨"out", ⟨"gozero"⟩⟩ "postgres://db" "out" "public" ⟨[], []⟩ ["a", "b", "c", "d", "e"] 2 "c"
    ⟨"query failed: c"⟩ rfl rfl
    (by
      intro earlier h
      have h' : earlier = "a" ∨ earlier = "b" := by simpa using h
      rcases h' with h' | h' <;> subst h' <;> exact ⟨_, _, rfl, rfl⟩)
    rfl

end PGJulia
